import Mathlib

/-!
# Verification of the backtesting core of the quant-trading-competition repository

Shallow embedding of the event-driven backtesting engine found in
`infra/lambda/evaluator_lambda.py` (classes `Market_local`, `Portfolio_local`,
`Engine_local`, helper `calculate_sharpe_ratio`, function
`read_and_batch_csv_data`) and of the vectorized evaluation path in
`src/evaluation.py`.

Modelling conventions:
* Python floats are modelled as exact rationals (`ℚ`); the float literal
  `1e-8` is read as the rational `1/100000000`.  A float `NaN` arising inside
  `calculate_sharpe_ratio` is modelled by `Option` (`none` = NaN), because the
  NaN-propagation behaviour of that function is observable.
* Python dicts keyed by strings are modelled either as functions
  `String → Option _` (the market's quote store) or as association lists with
  unique keys kept in insertion order (the portfolio's position map).
* A raised Python exception is modelled by `Option`/`Except`: `none`
  (resp. `.error`) means the operation raised instead of returning.
-/

/-- A quote dict as produced by ingestion and consumed by the market:
`{'id': …, 'timestep': …, 'price': …, 'data': …}`.  The `'timestep'` and
`'price'` keys are optional (`Quote.get` in the Python code defaults them to
`None`); the Clock sentinel dict carries no `'price'` key.  The `'data'`
entry duplicates `'price'` and is read by no code this file models, so it is
omitted. -/
structure Quote where
  id : String
  timestep : Option String
  price : Option ℚ
deriving DecidableEq

/-- `Market_local` (evaluator_lambda.py): a universe and the latest quote per
product id, as a finite map modelled by a function (the Python attribute
`universe` is a Lean keyword, hence the field name `univ`). -/
structure Market where
  univ : List String
  quotes : String → Option Quote

/-- `Market_local.__init__`: `self.quotes = {}`. -/
def Market.init (univ : List String) : Market :=
  { univ := univ, quotes := fun _ => none }

/-- `Market_local.update`: overwrite `quotes[quote['id']]` unless the id is
`"Clock"`, in which case nothing happens. -/
def Market.update (m : Market) (q : Quote) : Market :=
  if q.id ≠ "Clock" then
    { m with quotes := fun p => if p = q.id then some q else m.quotes p }
  else m

/-- `market.update` applied to a whole batch, in the batch's order
(the loop `for q in quote_batch: self.market.update(q)`). -/
def Market.updateAll (m : Market) (qs : List Quote) : Market :=
  qs.foldl Market.update m

/-- The position dict `self.positions`: `positions.get(product, 0)`. -/
def getPos (ps : List (String × ℚ)) (product : String) : ℚ :=
  ((ps.find? (fun e => e.1 == product)).map (fun e => e.2)).getD 0

/-- Dict assignment `positions[product] = qty`: overwrite in place if the key
exists, otherwise append (insertion order preserved, as in a Python dict). -/
def setPos (ps : List (String × ℚ)) (product : String) (qty : ℚ) : List (String × ℚ) :=
  if ps.any (fun e => e.1 == product) then
    ps.map (fun e => if e.1 == product then (product, qty) else e)
  else ps ++ [(product, qty)]

/-- `Portfolio_local` (evaluator_lambda.py).  The Python object also holds a
reference to its market; here the market is passed to each operation
explicitly. -/
structure Portfolio where
  cash : ℚ
  positions : List (String × ℚ)
  leverage_limit : ℚ
deriving DecidableEq

/-- `Portfolio_local._get_price`: `none` models the two failure modes that
both end in a raised exception — `ValueError` when the product has no quote
at all, and the `None` returned when the quote dict lacks a `'price'` key
(which makes the caller's first arithmetic use of it raise `TypeError`).
Either way the operation raises before mutating anything. -/
def Portfolio.getPrice (m : Market) (product : String) : Option ℚ :=
  (m.quotes product).bind (fun q => q.price)

/-- `Portfolio_local._get_timestamp`: raises (`none`) when the product has no
quote; otherwise the quote's `'timestep'` value, which may itself be absent. -/
def Portfolio.getTimestamp (m : Market) (product : String) : Option (Option String) :=
  (m.quotes product).map (fun q => q.timestep)

/-- `sum(abs(qty) * self._get_price(p) for p, qty in positions.items())`:
`none` when some held product has no priced quote (the generator raises). -/
def grossExposure (m : Market) (ps : List (String × ℚ)) : Option ℚ :=
  (ps.mapM (fun e => (Portfolio.getPrice m e.1).map (fun pr => |e.2| * pr))).map
    (fun l => l.sum)

/-- `new_cash + sum(qty * self._get_price(p) for p, qty in positions.items())`. -/
def navValue (m : Market) (cash : ℚ) (ps : List (String × ℚ)) : Option ℚ :=
  (ps.mapM (fun e => (Portfolio.getPrice m e.1).map (fun pr => e.2 * pr))).map
    (fun l => cash + l.sum)

/-- The quantity `gross / max(net_value, 1e-8)` computed inside
`Portfolio_local._check_leverage`. -/
def projectedLeverage (m : Market) (cash : ℚ) (ps : List (String × ℚ)) : Option ℚ := do
  let gross ← grossExposure m ps
  let net_value ← navValue m cash ps
  pure (gross / max net_value (1 / 100000000))

/-- `Portfolio_local._check_leverage`: `leverage <= self.leverage_limit`. -/
def Portfolio.check_leverage (pf : Portfolio) (m : Market) (new_cash : ℚ)
    (new_positions : List (String × ℚ)) : Option Bool :=
  (projectedLeverage m new_cash new_positions).map (fun lev => lev ≤ pf.leverage_limit)

/-- The log records `Portfolio_local.buy`/`sell` emit through the logger:
an info line for a committed fill, a warning line for a rejected trade
(the buy warning interpolates the timestamp, the sell warning does not). -/
inductive TradeRecord where
  | bought (timestamp : Option String) (quantity : ℚ) (product : String) (price : ℚ)
      (new_cash : ℚ)
  | sold (timestamp : Option String) (quantity : ℚ) (product : String) (price : ℚ)
      (new_cash : ℚ)
  | rejectedBuy (timestamp : Option String)
  | rejectedSell
deriving DecidableEq

/-- `Portfolio_local.buy`.  Returns `none` when the Python code raises
(no quote / no price for `product`, or a held product without a priced quote
inside `_check_leverage`); otherwise the new portfolio, the boolean result,
and the emitted log records. -/
def Portfolio.buy (pf : Portfolio) (m : Market) (product : String) (quantity : ℚ) :
    Option (Portfolio × Bool × List TradeRecord) := do
  let timestamp ← Portfolio.getTimestamp m product
  let price ← Portfolio.getPrice m product
  let cost := price * quantity
  let new_cash := pf.cash - cost
  let new_positions := setPos pf.positions product (getPos pf.positions product + quantity)
  let ok ← pf.check_leverage m new_cash new_positions
  if ok then
    pure ({ pf with cash := new_cash, positions := new_positions }, true,
      [TradeRecord.bought timestamp quantity product price new_cash])
  else
    pure (pf, false, [TradeRecord.rejectedBuy timestamp])

/-- `Portfolio_local.sell` (shorts allowed). -/
def Portfolio.sell (pf : Portfolio) (m : Market) (product : String) (quantity : ℚ) :
    Option (Portfolio × Bool × List TradeRecord) := do
  let timestamp ← Portfolio.getTimestamp m product
  let price ← Portfolio.getPrice m product
  let proceeds := price * quantity
  let new_cash := pf.cash + proceeds
  let new_positions := setPos pf.positions product (getPos pf.positions product - quantity)
  let ok ← pf.check_leverage m new_cash new_positions
  if ok then
    pure ({ pf with cash := new_cash, positions := new_positions }, true,
      [TradeRecord.sold timestamp quantity product price new_cash])
  else
    pure (pf, false, [TradeRecord.rejectedSell])

/-- `pd.Series.pct_change` from the second element on: successive simple
returns `(y - prev) / prev`.  Rational division by zero yields `0` where a
Python zero NAV would yield `inf`/NaN; the theorems about
`calculate_sharpe_ratio` therefore assume nonzero NAV samples. -/
def pctChanges : ℚ → List ℚ → List ℚ
  | _, [] => []
  | prev, y :: ys => (y - prev) / prev :: pctChanges y ys

/-- `nav_series.pct_change().dropna()`: the leading NaN is dropped. -/
def returnsOf : List ℚ → List ℚ
  | [] => []
  | x :: xs => pctChanges x xs

/-- `pd.Series.mean`. -/
def seriesMean (xs : List ℚ) : ℚ := xs.sum / xs.length

/-- The sample variance underlying `pd.Series.std` (`ddof = 1`). -/
def sampleVar (xs : List ℚ) : ℚ :=
  (xs.map (fun x => (x - seriesMean xs) ^ 2)).sum / ((xs.length : ℚ) - 1)

/-- `pd.Series.std` with its default `ddof = 1`: NaN (`none`) on fewer than
two values, otherwise the square root of the sample variance.  Exact real
square roots are irrational, so the float `sqrt` is abstracted into the
parameter `sqrtQ` (every theorem below either holds for all `sqrtQ` or
states its assumptions on it). -/
def stdSample (sqrtQ : ℚ → ℚ) (xs : List ℚ) : Option ℚ :=
  if xs.length < 2 then none else some (sqrtQ (sampleVar xs))

/-- `calculate_sharpe_ratio` (evaluator_lambda.py lines 21-39, identical copy
in src/Engine.py lines 14-32).  `none` models a float NaN result.  Mirrors
the source line by line:
* `if not nav_history or len(nav_history) < 2: return 0.0`;
* `returns = nav_series.pct_change().dropna()`;
* `if returns.empty or returns.std() == 0: return 0.0` — note that a NaN
  standard deviation compares unequal to `0`, so it does not take this branch;
* `annualized_std_dev = std_dev * np.sqrt(periods_per_year)`; a NaN
  `std_dev` makes it NaN, `if annualized_std_dev == 0` is then false, and the
  final division returns NaN. -/
def calculate_sharpe_ratio (sqrtQ : ℚ → ℚ) (nav_history : List ℚ)
    (periods_per_year : ℚ) : Option ℚ :=
  if nav_history.length < 2 then some 0
  else
    let returns := returnsOf nav_history
    if returns.isEmpty ∨ stdSample sqrtQ returns = some 0 then some 0
    else
      let mean_return := seriesMean returns
      let annualized_mean_return := mean_return * periods_per_year
      match stdSample sqrtQ returns with
      | none => none
      | some std_dev =>
          let annualized_std_dev := std_dev * sqrtQ periods_per_year
          if annualized_std_dev = 0 then some 0
          else some (annualized_mean_return / annualized_std_dev)

/-- A single call the strategy makes into the portfolio during `on_quote`
(§4.3 of the spec: the strategy mutates the portfolio only through `buy` and
`sell`). -/
inductive Cmd where
  | buy (product : String) (quantity : ℚ)
  | sell (product : String) (quantity : ℚ)

/-- What one `on_quote` invocation does: the portfolio calls it issues, in
order, and whether the callback then raises.  A call that itself raises
(e.g. `buy` on an unquoted product) aborts the rest of the callback; both
kinds of exception are swallowed by the engine's `try/except`. -/
structure StrategyAct where
  cmds : List Cmd
  raises : Bool

/-- A strategy: given the batch index (standing for the callback object's
internal state), the market and the portfolio at the start of the callback,
what the callback does.  Deterministic Python callbacks are functions of
exactly this data. -/
def Strategy : Type := ℕ → Market → Portfolio → StrategyAct

/-- Run one portfolio call; `none` = the call raised. -/
def applyCmd (m : Market) (pf : Portfolio) : Cmd → Option Portfolio
  | Cmd.buy p q => (pf.buy m p q).map (fun r => r.1)
  | Cmd.sell p q => (pf.sell m p q).map (fun r => r.1)

/-- Run the callback's calls in order.  A raising call ends the callback
early; the portfolio keeps whatever mutations happened before the raise
(the engine makes no attempt to roll back). -/
def applyCmds (m : Market) : Portfolio → List Cmd → Portfolio
  | pf, [] => pf
  | pf, c :: cs =>
      match applyCmd m pf c with
      | none => pf
      | some pf2 => applyCmds m pf2 cs

/-- `Engine_local` state: market, portfolio and the NAV history
(`self.nav_history = [initial_cash]`). -/
structure Engine where
  initial_cash : ℚ
  market : Market
  portfolio : Portfolio
  nav_history : List ℚ

/-- `Engine_local.__init__`: fresh market over the universe, portfolio with
`leverage_limit=10.0`, NAV history seeded with the initial cash. -/
def Engine.init (univ : List String) (initial_cash : ℚ) : Engine :=
  { initial_cash := initial_cash
    market := Market.init univ
    portfolio := { cash := initial_cash, positions := [], leverage_limit := 10 }
    nav_history := [initial_cash] }

/-- One iteration of the loop in `Engine_local.run`:
1. apply every quote in the batch to the market;
2. invoke `on_quote` inside `try/except` — the returned `raises` flag is
   deliberately ignored, which is exactly the `except: pass`;
3. append `self.portfolio._net_asset_value()` to the NAV history.  Step 3 is
   outside the `try`, so `none` (a `ValueError` from a position without a
   quote) propagates and aborts the run. -/
def Engine.runBatch (strategy : Strategy) (e : Engine) (idx : ℕ) (batch : List Quote) :
    Option Engine :=
  let m := e.market.updateAll batch
  let act := strategy idx m e.portfolio
  let pf := applyCmds m e.portfolio act.cmds
  (navValue m pf.cash pf.positions).map (fun nav =>
    { e with market := m, portfolio := pf, nav_history := e.nav_history ++ [nav] })

/-- The loop of `Engine_local.run` over the remaining batches. -/
def Engine.runFrom (strategy : Strategy) : Engine → ℕ → List (List Quote) → Option Engine
  | e, _, [] => some e
  | e, idx, b :: bs =>
      match e.runBatch strategy idx b with
      | none => none
      | some e2 => Engine.runFrom strategy e2 (idx + 1) bs

/-- `Engine_local(...)` followed by `engine.run()`. -/
def Engine.run (strategy : Strategy) (univ : List String) (data_batches : List (List Quote))
    (initial_cash : ℚ) : Option Engine :=
  Engine.runFrom strategy (Engine.init univ initial_cash) 0 data_batches

/-- Python string comparison: lexicographic on Unicode code points. -/
def lexLt : List Char → List Char → Bool
  | [], [] => false
  | [], _ :: _ => true
  | _ :: _, [] => false
  | a :: as, b :: bs =>
      if a.toNat < b.toNat then true
      else if b.toNat < a.toNat then false
      else lexLt as bs

/-- `a < b` on Python strings. -/
def strLt (a b : String) : Bool := lexLt a.data b.data

/-- `a <= b` on Python strings, as the sort in the code needs it. -/
def strLe (a b : String) : Bool := !(strLt b a)

theorem char_eq_of_toNat_eq {a b : Char} (h : a.toNat = b.toNat) : a = b := by
  unfold Char.toNat at h
  exact Char.eq_of_val_eq (UInt32.eq_of_val_eq (Fin.eq_of_val_eq h))

theorem lexLt_asymm : ∀ (a b : List Char), lexLt a b = true → lexLt b a = false := by
  intro a
  induction a with
  | nil => intro b h; cases b <;> simp_all [lexLt]
  | cons x xs ih =>
      intro b h
      cases b with
      | nil => simp [lexLt] at h
      | cons y ys =>
          simp only [lexLt] at h ⊢
          by_cases h1 : x.toNat < y.toNat
          · simp [h1, Nat.lt_asymm h1]
          · by_cases h2 : y.toNat < x.toNat
            · simp [h1, h2] at h
            · simp only [h1, h2, if_false] at h ⊢
              simp [ih ys h]

theorem lexLt_trans :
    ∀ (a b c : List Char), lexLt a b = true → lexLt b c = true → lexLt a c = true := by
  intro a
  induction a with
  | nil =>
      intro b c hab hbc
      cases b with
      | nil => simp [lexLt] at hab
      | cons y ys => cases c with
        | nil => simp [lexLt] at hbc
        | cons z zs => simp [lexLt]
  | cons x xs ih =>
      intro b c hab hbc
      cases b with
      | nil => simp [lexLt] at hab
      | cons y ys =>
          cases c with
          | nil => simp [lexLt] at hbc
          | cons z zs =>
              simp only [lexLt] at hab hbc ⊢
              by_cases hxy : x.toNat < y.toNat
              · by_cases hyz : y.toNat < z.toNat
                · simp [Nat.lt_trans hxy hyz]
                · by_cases hzy : z.toNat < y.toNat
                  · simp [hyz, hzy] at hbc
                  · have : y.toNat = z.toNat := Nat.le_antisymm (Nat.le_of_not_lt hzy) (Nat.le_of_not_lt hyz)
                    simp [this ▸ hxy]
              · by_cases hyx : y.toNat < x.toNat
                · simp [hxy, hyx] at hab
                · have hxyn : x.toNat = y.toNat := Nat.le_antisymm (Nat.le_of_not_lt hyx) (Nat.le_of_not_lt hxy)
                  simp only [hxy, hyx, if_false] at hab
                  by_cases hyz : y.toNat < z.toNat
                  · simp [hxyn ▸ hyz]
                  · by_cases hzy : z.toNat < y.toNat
                    · simp [hyz, hzy] at hbc
                    · simp only [hyz, hzy, if_false] at hbc
                      have hyzn : y.toNat = z.toNat := Nat.le_antisymm (Nat.le_of_not_lt hzy) (Nat.le_of_not_lt hyz)
                      have hxz : ¬ x.toNat < z.toNat := by rw [hxyn, hyzn]; exact Nat.lt_irrefl _
                      have hzx : ¬ z.toNat < x.toNat := by rw [hxyn, hyzn]; exact Nat.lt_irrefl _
                      simp only [hxz, hzx, if_false]
                      exact ih ys zs hab hbc

theorem lexLt_conn :
    ∀ (a b : List Char), lexLt a b = false → lexLt b a = false → a = b := by
  intro a
  induction a with
  | nil => intro b hab _; cases b with
    | nil => rfl
    | cons y ys => simp [lexLt] at hab
  | cons x xs ih =>
      intro b hab hba
      cases b with
      | nil => simp [lexLt] at hba
      | cons y ys =>
          simp only [lexLt] at hab hba
          by_cases hxy : x.toNat < y.toNat
          · simp [hxy] at hab
          · by_cases hyx : y.toNat < x.toNat
            · simp [hxy, hyx] at hba
            · simp only [hxy, hyx, if_false] at hab hba
              have hx : x = y :=
                char_eq_of_toNat_eq (Nat.le_antisymm (Nat.le_of_not_lt hyx) (Nat.le_of_not_lt hxy))
              rw [hx, ih ys hab hba]

theorem strLe_total (a b : String) : strLe a b = true ∨ strLe b a = true := by
  unfold strLe strLt
  by_cases h : lexLt b.data a.data = true
  · right; simp [lexLt_asymm _ _ h]
  · left; simp [Bool.not_eq_true] at h; simp [h]

theorem strLe_trans {a b c : String} (hab : strLe a b = true) (hbc : strLe b c = true) :
    strLe a c = true := by
  unfold strLe strLt at hab hbc ⊢
  simp only [Bool.not_eq_true'] at hab hbc ⊢
  by_cases hca : lexLt c.data a.data = true
  · cases hbc2 : lexLt b.data c.data with
    | true =>
        have : lexLt b.data a.data = true := lexLt_trans _ _ _ hbc2 hca
        simp [this] at hab
    | false =>
        have hbceq : b.data = c.data := lexLt_conn _ _ hbc2 hbc
        rw [← hbceq] at hca
        simp [hca] at hab
  · simp [Bool.not_eq_true] at hca; simp [hca]

theorem strLe_refl (a : String) : strLe a a = true := by
  unfold strLe strLt
  cases h : lexLt a.data a.data
  · rfl
  · exact absurd (lexLt_asymm _ _ h) (by simp [h])

/-- `strLe` as a relation, to drive `List.insertionSort` (a stable sort by a
total preorder computes the same list as Python's stable `sorted`). -/
def strLeRel (a b : String) : Prop := strLe a b = true

instance : DecidableRel strLeRel := fun a b => by unfold strLeRel; infer_instance

instance : IsTotal String strLeRel := ⟨strLe_total⟩

instance : IsTrans String strLeRel := ⟨fun _ _ _ => strLe_trans⟩

theorem strEq_of_data_eq {a b : String} (h : a.data = b.data) : a = b := by
  cases a; cases b; exact congrArg String.mk h

/-- A CSV row as `csv.DictReader` yields it: header name → cell text.
Lookup is `row[key]` / `row.get(key)`; `none` models a missing key
(`KeyError` at a `row[key]` site, `None` at a `row.get(key)` site). -/
def Row : Type := List (String × String)

/-- `row.get(key)` / `row[key]`. -/
def Row.get (r : Row) (key : String) : Option String :=
  ((r.find? (fun e => e.1 == key)).map (fun e => e.2))

/-- Digit-string accumulation for `pyFloat`. -/
def digitsVal : List Char → ℕ → Option ℕ
  | [], acc => some acc
  | c :: rest, acc =>
      if c.isDigit then digitsVal rest (acc * 10 + (c.toNat - 48)) else none

/-- Python `float(s)` on plain decimal literals: optional sign, digits,
optionally a point and more digits; anything else raises `ValueError`
(`none`).  Exponents, `"inf"`/`"nan"` and surrounding whitespace — which
CPython would also accept — are outside the model; the structural theorems
below do not depend on which rows parse, only on skip-versus-keep. -/
def pyFloat (s : String) : Option ℚ :=
  let core : List Char → Option ℚ := fun cs =>
    let ip := cs.takeWhile Char.isDigit
    let rest := cs.dropWhile Char.isDigit
    match rest with
    | [] =>
        if ip.isEmpty then none
        else (digitsVal ip 0).map (fun n => (n : ℚ))
    | '.' :: fp =>
        if (ip.isEmpty && fp.isEmpty) || !(fp.all Char.isDigit) then none
        else
          match digitsVal ip 0, digitsVal fp 0 with
          | some n, some f => some ((n : ℚ) + (f : ℚ) / (10 : ℚ) ^ fp.length)
          | _, _ => none
    | _ => none
  match s.data with
  | '-' :: cs => (core cs).map (fun q => -q)
  | '+' :: cs => core cs
  | cs => core cs

/-- The quote dict the long-format reader builds for a data row
(`{'id': …, 'timestep': …, 'price': …, 'data': …}`): all three modelled keys
are present by construction. -/
structure LQuote where
  id : String
  timestep : String
  price : ℚ
deriving DecidableEq

/-- Rebuild the untyped quote dict from an `LQuote`. -/
def LQuote.toQuote (q : LQuote) : Quote :=
  { id := q.id, timestep := some q.timestep, price := some q.price }

/-- The Clock sentinel dict `{'id': 'Clock', 'timestep': ts}` (no price key);
in the wide-format reader `ts` can be Python `None`. -/
def clockQuote (ts : Option String) : Quote :=
  { id := "Clock", timestep := ts, price := none }

/-- The sort key of `all_quotes.sort(key=lambda q: (q['timestep'], q['id']))`:
`<=` on the pair of Python strings, lexicographically. -/
def lqKeyLe (a b : LQuote) : Bool :=
  strLt a.timestep b.timestep || (a.timestep == b.timestep && strLe a.id b.id)

/-- `lqKeyLe` as a relation for `List.insertionSort`; a stable sort by this
total preorder computes the same list as Python's stable `list.sort`. -/
def lqKeyRel (a b : LQuote) : Prop := lqKeyLe a b = true

instance : DecidableRel lqKeyRel := fun a b => by unfold lqKeyRel; infer_instance

theorem strLt_conn {a b : String} (hab : strLt a b = false) (hba : strLt b a = false) :
    a = b :=
  strEq_of_data_eq (lexLt_conn _ _ hab hba)

instance : IsTotal LQuote lqKeyRel := by
  constructor
  intro a b
  unfold lqKeyRel lqKeyLe
  cases hab : strLt a.timestep b.timestep with
  | true => left; simp [hab]
  | false =>
      cases hba : strLt b.timestep a.timestep with
      | true => right; simp [hba]
      | false =>
          have hts : a.timestep = b.timestep := strLt_conn hab hba
          rcases strLe_total a.id b.id with h | h
          · left; simp [hab, hts, h]
          · right; simp [hba, hts.symm, h]

instance : IsTrans LQuote lqKeyRel := by
  constructor
  intro a b c hab hbc
  unfold lqKeyRel lqKeyLe at hab hbc ⊢
  simp only [Bool.or_eq_true, Bool.and_eq_true, beq_iff_eq] at hab hbc ⊢
  rcases hab with hab | ⟨haeq, haid⟩
  · rcases hbc with hbc | ⟨hbeq, _⟩
    · exact Or.inl (by unfold strLt at *; exact lexLt_trans _ _ _ hab hbc)
    · exact Or.inl (hbeq ▸ hab)
  · rcases hbc with hbc | ⟨hbeq, hbid⟩
    · exact Or.inl (haeq ▸ hbc)
    · exact Or.inr ⟨haeq.trans hbeq, strLe_trans haid hbid⟩

/-- The state of the batching loop in the long-format reader:
`current_batch`, `last_ts` (Python `None` before the first quote) and the
batches flushed so far. -/
structure BatchState where
  current_batch : List LQuote
  last_ts : Option String
  acc : List (List Quote)

/-- One iteration of `for quote in all_quotes:` in `read_and_batch_csv_data`
(long format): start a new batch when the timestep changes, terminating the
previous one with a Clock quote. -/
def batchStep (st : BatchState) (q : LQuote) : BatchState :=
  let ts := q.timestep
  let last := st.last_ts.getD ts
  if ts ≠ last then
    let acc :=
      if st.current_batch.isEmpty then st.acc
      else st.acc ++ [st.current_batch.map LQuote.toQuote ++ [clockQuote (some last)]]
    { current_batch := [q], last_ts := some ts, acc := acc }
  else
    { current_batch := st.current_batch ++ [q], last_ts := some last, acc := st.acc }

/-- The batching loop plus the trailing `if current_batch:` flush.  A
nonempty `current_batch` always comes with `last_ts ≠ None`; the `none`
fallback branch is unreachable. -/
def batchQuotes (qs : List LQuote) : List (List Quote) :=
  let st := qs.foldl batchStep { current_batch := [], last_ts := none, acc := [] }
  match st.current_batch, st.last_ts with
  | [], _ => st.acc
  | cb, some ts => st.acc ++ [cb.map LQuote.toQuote ++ [clockQuote (some ts)]]
  | cb, none => st.acc ++ [cb.map LQuote.toQuote]

/-- One long-format row inside the per-row `try`: parse
`float(row['mid_price'])`, read the time cell and the product id; any
failure (`ValueError`/`KeyError`) skips the row. -/
def parseLongRow (time_col : String) (row : Row) : Option LQuote := do
  let priceCell ← Row.get row "mid_price"
  let price ← pyFloat priceCell
  let ts ← Row.get row time_col
  let pid ← Row.get row "product_id"
  pure { id := pid, timestep := ts, price := price }

/-- One wide-format row: one quote per universe column whose cell is
present, not `''`/`'NaN'`, and parses; a row with no product quotes is
dropped, otherwise a Clock quote for the row's (possibly missing) time cell
is appended. -/
def parseWideRow (time_col : String) (univ : List String) (row : Row) :
    Option (List Quote) :=
  let ts : Option String := Row.get row time_col
  let current_batch := univ.filterMap (fun ric =>
    match Row.get row ric with
    | none => none
    | some v =>
        if v == "" || v == "NaN" then none
        else (pyFloat v).map (fun price =>
          ({ id := ric, timestep := ts, price := some price } : Quote)))
  if current_batch.isEmpty then none
  else some (current_batch ++ [clockQuote ts])

/-- `read_and_batch_csv_data` (evaluator_lambda.py lines 228-330), after the
CSV text has been split into a header list and `csv.DictReader` rows:
* `time_col = 'timestep' if 'timestep' in headers else 'timestamp'` — note
  there is no check that `'timestamp'` is actually present;
* long format when `'product_id'` is a header: universe =
  `sorted(set(row['product_id'] …))` (a missing `product_id` key raises out
  of the function, hence `Except`), quotes grouped per product in row order,
  concatenated in universe order, stably sorted by the *string* pair
  `(timestep, product_id)`, then batched;
* wide format otherwise: universe = sorted non-time headers (duplicates
  kept), one batch per row that yields at least one quote. -/
def read_and_batch_csv_data (headers : List String) (rows : List Row) :
    Except String (List String × List (List Quote)) :=
  let time_col := if headers.contains "timestep" then "timestep" else "timestamp"
  if headers.contains "product_id" then
    match rows.mapM (fun r => Row.get r "product_id") with
    | none => Except.error "KeyError: product_id"
    | some pids =>
        let univ := List.insertionSort strLeRel pids.dedup
        let all_quotes := univ.flatMap (fun ric =>
          rows.filterMap (fun r =>
            (parseLongRow time_col r).bind (fun q =>
              if q.id = ric then some q else none)))
        let sorted_quotes := List.insertionSort lqKeyRel all_quotes
        Except.ok (univ, batchQuotes sorted_quotes)
  else
    let univ := List.insertionSort strLeRel (headers.filter (fun h => h ≠ time_col))
    Except.ok (univ, rows.filterMap (parseWideRow time_col univ))

/-- `compute_returns` (src/evaluation.py): `px.pct_change().fillna(0.0)` —
the leading NaN becomes `0`. -/
def compute_returns (prices : List ℚ) : List ℚ :=
  match prices with
  | [] => []
  | x :: xs => 0 :: pctChanges x xs

/-- `signals.shift(1).fillna(0.0)`: yesterday's signal, `0` at the start. -/
def shift1_fillna0 (xs : List ℚ) : List ℚ :=
  match xs with
  | [] => []
  | _ :: _ => 0 :: xs.dropLast

/-- `signals.diff().abs().fillna(0.0)`: per-period absolute signal change. -/
def diff_abs_fillna0 (xs : List ℚ) : List ℚ :=
  match xs with
  | [] => []
  | _ :: rest => 0 :: List.zipWith (fun b a => |b - a|) rest xs

/-- `apply_signals_to_returns` (src/evaluation.py lines 9-22).  The
`signals.reindex(returns.index).fillna(0).astype(float)` step is the
identity for the identically indexed series of the vectorized strategy
contract, which is the case the theorems below treat (they assume equal
lengths). -/
def apply_signals_to_returns (returns signals : List ℚ) (cost_bps : ℚ) : List ℚ :=
  let pos := shift1_fillna0 signals
  let strat_ret := List.zipWith (fun p r => p * r) pos returns
  let turnover := diff_abs_fillna0 signals
  let costs := turnover.map (fun t => t * (cost_bps / 10000))
  List.zipWith (fun s c => s - c) strat_ret costs

/-- The turnover reported by `evaluate` (src/evaluation.py line 55):
`aligned_signals.diff().abs().fillna(0.0).sum()`. -/
def evaluate_turnover (signals : List ℚ) : ℚ :=
  (diff_abs_fillna0 signals).sum

/-- The closed form the spec states for the vectorized path, period by
period: position = previous period's signal, minus `|Δsignal| * cost_bps /
10000`.  Used to compare `apply_signals_to_returns` against the claim. -/
def specNetReturns (returns signals : List ℚ) (cost_bps : ℚ) : List ℚ :=
  (List.range returns.length).map (fun i =>
    (if i = 0 then 0 else signals.getD (i - 1) 0) * returns.getD i 0
    - (if i = 0 then 0 else |signals.getD i 0 - signals.getD (i - 1) 0|) * (cost_bps / 10000))

/-- The integer reading of a batch's time key, for stating the frozen
ordering claim: the `'timestep'` of the batch's last quote (the Clock
sentinel), parsed as a decimal integer. -/
def batchTimeKeyNat (b : List Quote) : Option ℕ :=
  (b.getLast?).bind (fun q => q.timestep.bind (fun ts => digitsVal ts.data 0))

/-- Non-decreasing integer time keys between two adjacent batches (vacuous
when a key is missing or non-numeric), for stating the ordering claim. -/
def natKeyLeB (b1 b2 : List Quote) : Bool :=
  match batchTimeKeyNat b1, batchTimeKeyNat b2 with
  | some n1, some n2 => n1 ≤ n2
  | _, _ => true

/-- The string time key of a batch: the `'timestep'` carried by its final
Clock sentinel. -/
def batchTimeKeyStr (b : List Quote) : Option String :=
  (b.getLast?).bind (fun q => q.timestep)

/-- Non-decreasing lexicographic string time keys between adjacent batches. -/
def strKeyLeB (b1 b2 : List Quote) : Bool :=
  match batchTimeKeyStr b1, batchTimeKeyStr b2 with
  | some t1, some t2 => strLe t1 t2
  | _, _ => true

theorem getLast?_cons_or {α : Type} (a : α) (l : List α) :
    (a :: l).getLast? = (l.getLast?).or (some a) := by
  induction l generalizing a with
  | nil => rfl
  | cons b t ih =>
      rw [List.getLast?_cons_cons, ih b]
      cases h : t.getLast? with
      | none => rfl
      | some x => rfl

theorem updateAll_quotes_eq (qs : List Quote) :
    ∀ (m : Market) (p : String), p ≠ "Clock" →
      (m.updateAll qs).quotes p = ((qs.filter (fun q => q.id == p)).getLast?).or (m.quotes p) := by
  induction qs with
  | nil => intro m p _; simp [Market.updateAll]
  | cons q qs ih =>
      intro m p hp
      have hstep : m.updateAll (q :: qs) = (m.update q).updateAll qs := rfl
      rw [hstep, ih (m.update q) p hp]
      by_cases hcl : q.id = "Clock"
      · have hqid : (q.id == p) = false := by
          simp only [beq_eq_false_iff_ne]
          intro h; exact hp (h ▸ hcl)
        have hfil : (q :: qs).filter (fun r => r.id == p) = qs.filter (fun r => r.id == p) := by
          simp [List.filter_cons, hqid]
        have hup : m.update q = m := by simp [Market.update, hcl]
        rw [hfil, hup]
      · by_cases hpq : p = q.id
        · have hqid : (q.id == p) = true := by simp [hpq]
          have hfil : (q :: qs).filter (fun r => r.id == p) = q :: qs.filter (fun r => r.id == p) := by
            simp [List.filter_cons, hqid]
          rw [hfil, getLast?_cons_or]
          have hquotes : (m.update q).quotes p = some q := by
            simp only [Market.update, if_pos (show q.id ≠ "Clock" from hcl)]
            show (if p = q.id then some q else m.quotes p) = some q
            rw [if_pos hpq]
          rw [hquotes]
          cases h : (qs.filter (fun r => r.id == p)).getLast? with
          | none => rfl
          | some x => rfl
        · have hqid : (q.id == p) = false := by
            simp only [beq_eq_false_iff_ne]
            intro h; exact hpq h.symm
          have hfil : (q :: qs).filter (fun r => r.id == p) = qs.filter (fun r => r.id == p) := by
            simp [List.filter_cons, hqid]
          rw [hfil]
          have hquotes : (m.update q).quotes p = m.quotes p := by
            simp only [Market.update, if_pos (show q.id ≠ "Clock" from hcl)]
            show (if p = q.id then some q else m.quotes p) = m.quotes p
            rw [if_neg hpq]
          rw [hquotes]

theorem updateAll_quotes_clock (qs : List Quote) :
    ∀ m : Market, m.quotes "Clock" = none → (m.updateAll qs).quotes "Clock" = none := by
  induction qs with
  | nil => intro m h; exact h
  | cons q qs ih =>
      intro m h
      have hstep : m.updateAll (q :: qs) = (m.update q).updateAll qs := rfl
      rw [hstep]
      refine ih (m.update q) ?_
      by_cases hcl : q.id = "Clock"
      · simp [Market.update, hcl, h]
      · simp only [Market.update, if_pos (show q.id ≠ "Clock" from hcl)]
        show (if "Clock" = q.id then some q else m.quotes "Clock") = none
        rw [if_neg (fun hc => hcl hc.symm)]
        exact h

/-- C7: `Market.update` overwrites the quote for a non-Clock id and is a
no-op for the Clock sentinel; starting from a fresh market, after any
sequence of updates the quote store has no `"Clock"` entry and maps every
other product to the most recently updated quote carrying its id. -/
theorem market_update_clock_and_latest :
    (∀ (m : Market) (q : Quote), q.id ≠ "Clock" →
        (m.update q).quotes = fun p => if p = q.id then some q else m.quotes p)
    ∧ (∀ (m : Market) (q : Quote), q.id = "Clock" → m.update q = m)
    ∧ (∀ (u : List String) (qs : List Quote),
        ((Market.init u).updateAll qs).quotes "Clock" = none)
    ∧ (∀ (u : List String) (qs : List Quote) (p : String), p ≠ "Clock" →
        ((Market.init u).updateAll qs).quotes p
          = (qs.filter (fun q => q.id == p)).getLast?) := by
  refine ⟨?_, ?_, ?_, ?_⟩
  · intro m q h; simp [Market.update, h]
  · intro m q h; simp [Market.update, h]
  · intro u qs
    exact updateAll_quotes_clock qs (Market.init u) rfl
  · intro u qs p hp
    rw [updateAll_quotes_eq qs (Market.init u) p hp]
    simp [Market.init]

/-- Witness for C7: after a real update sequence containing a Clock quote,
the store holds the most recent `"A"` quote, as the theorem computes. -/
theorem market_update_clock_and_latest_witness :
    ((Market.init ["A"]).updateAll
        [⟨"A", some "1", some 5⟩, ⟨"Clock", some "1", none⟩, ⟨"A", some "2", some 6⟩]).quotes "A"
      = some ⟨"A", some "2", some 6⟩ := by
  rw [market_update_clock_and_latest.2.2.2 ["A"]
    [⟨"A", some "1", some 5⟩, ⟨"Clock", some "1", none⟩, ⟨"A", some "2", some 6⟩] "A"
    (by decide)]
  decide

/-- C10: `sell(product, q)` computes exactly the same new cash, new
positions and boolean result as `buy(product, -q)` — quantities are never
sign-checked, so the two operations are mirror images (only their log lines
differ, which the projection discards).  Raising cases coincide as well. -/
theorem sell_eq_buy_neg (pf : Portfolio) (m : Market) (product : String) (q : ℚ) :
    (pf.sell m product q).map (fun r => (r.1, r.2.1))
      = (pf.buy m product (-q)).map (fun r => (r.1, r.2.1)) := by
  unfold Portfolio.sell Portfolio.buy
  cases hq : m.quotes product with
  | none => simp [Portfolio.getTimestamp, Portfolio.getPrice, hq]
  | some qt =>
      cases hp : qt.price with
      | none => simp [Portfolio.getTimestamp, Portfolio.getPrice, hq, hp]
      | some price =>
          simp only [Portfolio.getTimestamp, Portfolio.getPrice, hq, hp, Option.map_some',
            Option.some_bind, Option.bind_some, bind, Option.bind]
          have hc : pf.cash + price * q = pf.cash - price * (-q) := by ring
          have hpos : getPos pf.positions product - q = getPos pf.positions product + (-q) := by
            ring
          rw [hc, hpos]
          cases hl : pf.check_leverage m (pf.cash - price * (-q))
              (setPos pf.positions product (getPos pf.positions product + (-q))) with
          | none => simp
          | some ok => cases ok <;> simp

theorem getPos_map_overwrite (p : String) (v : ℚ) :
    ∀ ps : List (String × ℚ),
      getPos (ps.map (fun e => if e.1 == p then (p, v) else e)) p
        = if ps.any (fun e => e.1 == p) then v else 0 := by
  intro ps
  induction ps with
  | nil => simp [getPos]
  | cons e t ih =>
      by_cases he : (e.1 == p) = true
      · simp [getPos, List.find?, he]
      · have he2 : (e.1 == p) = false := by simp_all
        have hmap : List.map (fun x => if x.1 == p then (p, v) else x) (e :: t)
            = e :: List.map (fun x => if x.1 == p then (p, v) else x) t := by
          simp only [List.map_cons, he2, Bool.false_eq_true, if_false]
        rw [hmap]
        have hfind : getPos (e :: List.map (fun x => if x.1 == p then (p, v) else x) t) p
            = getPos (List.map (fun x => if x.1 == p then (p, v) else x) t) p := by
          simp [getPos, List.find?_cons_of_neg, he2]
        rw [hfind, ih]
        rw [List.any_cons, he2, Bool.false_or]

theorem getPos_append_new (p : String) (v : ℚ) :
    ∀ ps : List (String × ℚ), ps.any (fun e => e.1 == p) = false →
      getPos (ps ++ [(p, v)]) p = v := by
  intro ps
  induction ps with
  | nil => simp [getPos, List.find?]
  | cons e t ih =>
      intro h
      simp only [List.any_cons, Bool.or_eq_false_iff] at h
      simp only [List.cons_append]
      simp only [getPos, List.find?, h.1] at ih ⊢
      exact ih h.2

/-- `positions[product] = qty` followed by `positions.get(product, 0)` reads
back `qty`. -/
theorem getPos_setPos_self (ps : List (String × ℚ)) (p : String) (v : ℚ) :
    getPos (setPos ps p v) p = v := by
  unfold setPos
  by_cases h : ps.any (fun e => e.1 == p) = true
  · rw [if_pos h, getPos_map_overwrite, if_pos h]
  · have h2 : ps.any (fun e => e.1 == p) = false := by
      cases hb : ps.any (fun e => e.1 == p)
      · rfl
      · exact absurd hb h
    rw [if_neg h, getPos_append_new p v ps h2]

/-- C1: a trade whose hypothetical post-trade state has projected leverage
`gross_exposure / max(net_asset_value, 1e-8)` strictly above the limit is
rejected: both `buy` and `sell` return `False` (no exception), leave the
portfolio — cash and positions — exactly unchanged, and only emit the
rejection warning. -/
theorem buy_sell_reject_on_leverage (pf : Portfolio) (m : Market) (product : String)
    (quantity : ℚ) (qt : Quote) (price : ℚ)
    (hq : m.quotes product = some qt) (hp : qt.price = some price) :
    (∀ L, projectedLeverage m (pf.cash - price * quantity)
        (setPos pf.positions product (getPos pf.positions product + quantity)) = some L →
      pf.leverage_limit < L →
      pf.buy m product quantity = some (pf, false, [TradeRecord.rejectedBuy qt.timestep]))
    ∧ (∀ L, projectedLeverage m (pf.cash + price * quantity)
        (setPos pf.positions product (getPos pf.positions product - quantity)) = some L →
      pf.leverage_limit < L →
      pf.sell m product quantity = some (pf, false, [TradeRecord.rejectedSell])) := by
  constructor
  · intro L hL hlt
    unfold Portfolio.buy
    simp only [Portfolio.getTimestamp, Portfolio.getPrice, hq, hp, Option.map_some',
      Option.some_bind, bind, Option.bind, Portfolio.check_leverage, hL]
    have hd : decide (L ≤ pf.leverage_limit) = false := decide_eq_false (not_le.mpr hlt)
    simp [hd]
  · intro L hL hlt
    unfold Portfolio.sell
    simp only [Portfolio.getTimestamp, Portfolio.getPrice, hq, hp, Option.map_some',
      Option.some_bind, bind, Option.bind, Portfolio.check_leverage, hL]
    have hd : decide (L ≤ pf.leverage_limit) = false := decide_eq_false (not_le.mpr hlt)
    simp [hd]

/-- C8: a trade that passes the leverage check commits exactly the
hypothetical post-trade state — cash moves by `price * quantity` (down for
`buy`, up for `sell`), the product's signed position moves by exactly
`quantity` (up for `buy`, down for `sell`) — returns `True`, and emits the
fill record of the trade. -/
theorem buy_sell_commit (pf : Portfolio) (m : Market) (product : String)
    (quantity : ℚ) (qt : Quote) (price : ℚ)
    (hq : m.quotes product = some qt) (hp : qt.price = some price) :
    (∀ L, projectedLeverage m (pf.cash - price * quantity)
        (setPos pf.positions product (getPos pf.positions product + quantity)) = some L →
      L ≤ pf.leverage_limit →
      pf.buy m product quantity
        = some ({ cash := pf.cash - price * quantity,
                  positions := setPos pf.positions product (getPos pf.positions product + quantity),
                  leverage_limit := pf.leverage_limit }, true,
            [TradeRecord.bought qt.timestep quantity product price (pf.cash - price * quantity)])
      ∧ getPos (setPos pf.positions product (getPos pf.positions product + quantity)) product
          = getPos pf.positions product + quantity)
    ∧ (∀ L, projectedLeverage m (pf.cash + price * quantity)
        (setPos pf.positions product (getPos pf.positions product - quantity)) = some L →
      L ≤ pf.leverage_limit →
      pf.sell m product quantity
        = some ({ cash := pf.cash + price * quantity,
                  positions := setPos pf.positions product (getPos pf.positions product - quantity),
                  leverage_limit := pf.leverage_limit }, true,
            [TradeRecord.sold qt.timestep quantity product price (pf.cash + price * quantity)])
      ∧ getPos (setPos pf.positions product (getPos pf.positions product - quantity)) product
          = getPos pf.positions product - quantity) := by
  constructor
  · intro L hL hle
    refine ⟨?_, getPos_setPos_self _ _ _⟩
    unfold Portfolio.buy
    simp only [Portfolio.getTimestamp, Portfolio.getPrice, hq, hp, Option.map_some',
      Option.some_bind, bind, Option.bind, Portfolio.check_leverage, hL]
    have hd : decide (L ≤ pf.leverage_limit) = true := decide_eq_true hle
    simp [hd]
  · intro L hL hle
    refine ⟨?_, getPos_setPos_self _ _ _⟩
    unfold Portfolio.sell
    simp only [Portfolio.getTimestamp, Portfolio.getPrice, hq, hp, Option.map_some',
      Option.some_bind, bind, Option.bind, Portfolio.check_leverage, hL]
    have hd : decide (L ≤ pf.leverage_limit) = true := decide_eq_true hle
    simp [hd]

/-- Witness for C1: cash 10000, limit 2, buying 300 units at price 100 gives
projected leverage 3 > 2, so `buy` returns `False` and changes nothing. -/
theorem buy_sell_reject_on_leverage_witness :
    Portfolio.buy { cash := 10000, positions := [], leverage_limit := 2 }
      ((Market.init ["A"]).update { id := "A", timestep := some "0", price := some 100 })
      "A" 300
      = some ({ cash := 10000, positions := [], leverage_limit := 2 }, false,
          [TradeRecord.rejectedBuy (some "0")]) := by
  have hq : ((Market.init ["A"]).update
        { id := "A", timestep := some "0", price := some 100 }).quotes "A"
      = some { id := "A", timestep := some "0", price := some 100 } := by decide
  have hqa : Portfolio.getPrice
      ((Market.init ["A"]).update { id := "A", timestep := some "0", price := some 100 }) "A"
      = some 100 := by decide
  have hb : projectedLeverage
      ((Market.init ["A"]).update { id := "A", timestep := some "0", price := some 100 })
      ((10000 : ℚ) - 100 * 300)
      (setPos ([] : List (String × ℚ)) "A" (getPos ([] : List (String × ℚ)) "A" + 300))
      = some 3 := by
    show projectedLeverage _ ((10000 : ℚ) - 100 * 300)
      [("A", getPos ([] : List (String × ℚ)) "A" + 300)] = some 3
    simp only [projectedLeverage, grossExposure, navValue, List.mapM_cons, List.mapM_nil, hqa,
      Option.map_some', Option.some_bind, bind, Option.bind, pure, List.sum_cons, List.sum_nil]
    have hg : getPos ([] : List (String × ℚ)) "A" = 0 := rfl
    rw [hg]
    norm_num [max_def, abs_of_pos]
  exact (buy_sell_reject_on_leverage
      { cash := 10000, positions := [], leverage_limit := 2 }
      ((Market.init ["A"]).update { id := "A", timestep := some "0", price := some 100 })
      "A" 300 { id := "A", timestep := some "0", price := some 100 } 100 hq rfl).1
    3 hb (by norm_num)

/-- Witness for C8: cash 10000, limit 2, buying 50 units at price 100 has
projected leverage 1/2 ≤ 2; `buy` commits the post-trade state, returns
`True` and emits the fill record. -/
theorem buy_sell_commit_witness :
    Portfolio.buy { cash := 10000, positions := [], leverage_limit := 2 }
      ((Market.init ["A"]).update { id := "A", timestep := some "0", price := some 100 })
      "A" 50
      = some ({ cash := 5000, positions := [("A", 50)], leverage_limit := 2 }, true,
          [TradeRecord.bought (some "0") 50 "A" 100 5000]) := by
  have hq : ((Market.init ["A"]).update
        { id := "A", timestep := some "0", price := some 100 }).quotes "A"
      = some { id := "A", timestep := some "0", price := some 100 } := by decide
  have hqa : Portfolio.getPrice
      ((Market.init ["A"]).update { id := "A", timestep := some "0", price := some 100 }) "A"
      = some 100 := by decide
  have hb : projectedLeverage
      ((Market.init ["A"]).update { id := "A", timestep := some "0", price := some 100 })
      ((10000 : ℚ) - 100 * 50)
      (setPos ([] : List (String × ℚ)) "A" (getPos ([] : List (String × ℚ)) "A" + 50))
      = some (1 / 2) := by
    show projectedLeverage _ ((10000 : ℚ) - 100 * 50)
      [("A", getPos ([] : List (String × ℚ)) "A" + 50)] = some (1 / 2)
    simp only [projectedLeverage, grossExposure, navValue, List.mapM_cons, List.mapM_nil, hqa,
      Option.map_some', Option.some_bind, bind, Option.bind, pure, List.sum_cons, List.sum_nil]
    have hg : getPos ([] : List (String × ℚ)) "A" = 0 := rfl
    rw [hg]
    norm_num [max_def, abs_of_pos]
  have happ := (buy_sell_commit
      { cash := 10000, positions := [], leverage_limit := 2 }
      ((Market.init ["A"]).update { id := "A", timestep := some "0", price := some 100 })
      "A" 50 { id := "A", timestep := some "0", price := some 100 } 100 hq rfl).1
    (1 / 2) hb (by norm_num)
  rw [happ.1]
  norm_num [setPos, getPos]

theorem pctChanges_length (prev : ℚ) (xs : List ℚ) :
    (pctChanges prev xs).length = xs.length := by
  induction xs generalizing prev with
  | nil => rfl
  | cons y ys ih => simp [pctChanges, ih]

theorem returnsOf_length (navs : List ℚ) :
    (returnsOf navs).length = navs.length - 1 := by
  cases navs with
  | nil => rfl
  | cons x xs => simp [returnsOf, pctChanges_length]

/-- Counterexample for C2: on the NAV history `[100, 110]` — two samples,
exactly one return — `calculate_sharpe_ratio` yields NaN (`none`), not
`0.0`: the one-sample standard deviation is NaN, the `std == 0` guard is
false for NaN, and the NaN propagates through the final division.  (The
`sqrtQ` parameter is never consulted on this path.) -/
theorem calculate_sharpe_ratio_two_navs_nan :
    calculate_sharpe_ratio id [100, 110] 252 = none
    ∧ calculate_sharpe_ratio id [100, 110] 252 ≠ some 0 := by
  constructor
  · decide
  · decide

/-- C2 as amended: the guards of `calculate_sharpe_ratio` are (i) fewer than
two NAV *samples* (not returns) → `0.0`; (ii) a return-series standard
deviation exactly zero → `0.0`; a history of exactly two NAV samples
(one return) instead produces NaN, because the one-sample `std` is NaN and
`NaN == 0` is false; with at least three samples and nonzero variance the
result is `mean * periods_per_year / (std * sqrt(periods_per_year))`.
`sqrtQ` abstracts the float square root (`sqrtQ 0 = 0` is the only property
used).  The hypothesis `_hnz` restricts to histories of nonzero NAV samples:
there the rational `pct_change` agrees with pandas exactly, whereas a zero
sample sends pandas down a NaN/inf path (`0/0` is dropped by `dropna`,
`x/0` is a kept `inf`) that a rational model cannot represent. -/
theorem calculate_sharpe_ratio_spec (sqrtQ : ℚ → ℚ) (navs : List ℚ) (ppy : ℚ)
    (hs0 : sqrtQ 0 = 0) (_hnz : ∀ x ∈ navs, x ≠ 0) :
    (navs.length < 2 → calculate_sharpe_ratio sqrtQ navs ppy = some 0)
    ∧ (navs.length = 2 → calculate_sharpe_ratio sqrtQ navs ppy = none)
    ∧ (3 ≤ navs.length → sampleVar (returnsOf navs) = 0 →
        calculate_sharpe_ratio sqrtQ navs ppy = some 0)
    ∧ (3 ≤ navs.length → sampleVar (returnsOf navs) ≠ 0 →
        sqrtQ (sampleVar (returnsOf navs)) * sqrtQ ppy ≠ 0 →
        calculate_sharpe_ratio sqrtQ navs ppy
          = some (seriesMean (returnsOf navs) * ppy
              / (sqrtQ (sampleVar (returnsOf navs)) * sqrtQ ppy))) := by
  refine ⟨?_, ?_, ?_, ?_⟩
  · intro h
    simp [calculate_sharpe_ratio, h]
  · intro h
    have hlen : (returnsOf navs).length = 1 := by rw [returnsOf_length, h]
    have hne : ¬ navs.length < 2 := by omega
    have hemp : (returnsOf navs).isEmpty = false := by
      cases hr : returnsOf navs with
      | nil => rw [hr] at hlen; simp at hlen
      | cons a t => simp
    have hstd : stdSample sqrtQ (returnsOf navs) = none := by
      unfold stdSample
      rw [if_pos (by omega)]
    unfold calculate_sharpe_ratio
    rw [if_neg hne, if_neg (by simp [hemp, hstd]), hstd]
  · intro h3 hvar
    have hne : ¬ navs.length < 2 := by omega
    have hstd : stdSample sqrtQ (returnsOf navs) = some 0 := by
      unfold stdSample
      rw [if_neg (by rw [returnsOf_length]; omega), hvar, hs0]
    unfold calculate_sharpe_ratio
    rw [if_neg hne, if_pos (Or.inr hstd)]
  · intro h3 hvar hsd
    have hne : ¬ navs.length < 2 := by omega
    have hlen : 2 ≤ (returnsOf navs).length := by rw [returnsOf_length]; omega
    have hemp : (returnsOf navs).isEmpty = false := by
      cases hr : returnsOf navs with
      | nil => rw [hr] at hlen; simp at hlen
      | cons a t => simp
    have hsv : sqrtQ (sampleVar (returnsOf navs)) ≠ 0 := fun hz => hsd (by rw [hz, zero_mul])
    have hstd : stdSample sqrtQ (returnsOf navs) = some (sqrtQ (sampleVar (returnsOf navs))) := by
      unfold stdSample
      rw [if_neg (by omega)]
    unfold calculate_sharpe_ratio
    rw [if_neg hne, if_neg (by simp [hemp, hstd, hsv]), hstd]
    simp only [if_neg hsd]

/-- Witness for the amended C2 on the history `[1, 2, 1]` (returns
`[1, -1/2]`, sample variance `9/8`), with `sqrtQ := id` and 9 periods per
year: the formula branch fires and gives `(1/4 * 9) / (9/8 * 9) = 2/9`. -/
theorem calculate_sharpe_ratio_spec_witness :
    calculate_sharpe_ratio id [1, 2, 1] 9 = some (2 / 9) := by
  have hr : returnsOf [1, 2, 1] = [1, -(1 / 2)] := by
    norm_num [returnsOf, pctChanges]
  have hval : sampleVar (returnsOf [1, 2, 1]) = 9 / 8 := by
    rw [hr]
    norm_num [sampleVar, seriesMean]
  have hm : seriesMean (returnsOf [1, 2, 1]) = 1 / 4 := by
    rw [hr]
    norm_num [seriesMean]
  have h := (calculate_sharpe_ratio_spec id [1, 2, 1] 9 rfl (by decide)).2.2.2 (by decide)
    (by rw [hval]; norm_num)
    (by rw [hval]; norm_num)
  rw [h, hval, hm]
  norm_num

theorem shift1_length (xs : List ℚ) : (shift1_fillna0 xs).length = xs.length := by
  cases xs with
  | nil => rfl
  | cons x t => simp [shift1_fillna0, List.length_dropLast]

theorem diff_abs_length (xs : List ℚ) : (diff_abs_fillna0 xs).length = xs.length := by
  cases xs with
  | nil => rfl
  | cons x t => simp [diff_abs_fillna0, List.length_zipWith]

theorem sum_absdiff (s' : List ℚ) :
    ∀ x : ℚ, (List.zipWith (fun b a => |b - a|) s' (x :: s')).sum
      = ∑ i in Finset.range s'.length, |(x :: s').getD (i + 1) 0 - (x :: s').getD i 0| := by
  induction s' with
  | nil => intro x; simp
  | cons y t ih =>
      intro x
      have hstep : (List.zipWith (fun b a => |b - a|) (y :: t) (x :: y :: t)).sum
          = |y - x| + (List.zipWith (fun b a => |b - a|) t (y :: t)).sum := by
        simp [List.zipWith]
      rw [hstep, ih y, List.length_cons, Finset.sum_range_succ']
      simp only [List.getD_cons_succ, List.getD_cons_zero]
      ring

/-- C9: in the vectorized path the position applied at period `i` is the
signal of period `i - 1` (shift by one, no look-ahead, zero at the start),
the cost subtracted at period `i` is `|Δsignal| * cost_bps / 10000`, and the
reported turnover is `Σ|Δsignal|` over all periods.  Stated for equal-length
(identically indexed) signal and return series, the vectorized strategy
contract. -/
theorem apply_signals_no_lookahead (returns signals : List ℚ) (cost_bps : ℚ)
    (hlen : signals.length = returns.length) :
    (∀ i, i < returns.length →
      (apply_signals_to_returns returns signals cost_bps).getD i 0
        = (if i = 0 then 0 else signals.getD (i - 1) 0) * returns.getD i 0
          - (if i = 0 then 0 else |signals.getD i 0 - signals.getD (i - 1) 0|)
            * (cost_bps / 10000))
    ∧ evaluate_turnover signals
        = ∑ i in Finset.range (signals.length - 1),
            |signals.getD (i + 1) 0 - signals.getD i 0|
    ∧ (apply_signals_to_returns returns signals cost_bps).length = returns.length := by
  refine ⟨?_, ?_, ?_⟩
  · intro i hi
    have hsne : signals ≠ [] := by
      intro h
      rw [h] at hlen
      simp only [List.length_nil] at hlen
      omega
    obtain ⟨x, s', hs⟩ : ∃ x s', signals = x :: s' := by
      cases signals with
      | nil => exact absurd rfl hsne
      | cons a t => exact ⟨a, t, rfl⟩
    have h1 : (shift1_fillna0 signals)[i]? = some (if i = 0 then 0 else signals.getD (i - 1) 0) := by
      subst hs
      cases i with
      | zero => simp [shift1_fillna0]
      | succ j =>
          have hj : j < (x :: s').length - 1 := by
            have := hi
            omega
          simp only [shift1_fillna0, List.getElem?_cons_succ, List.getElem?_dropLast, hj,
            if_true, if_neg (Nat.succ_ne_zero j), Nat.add_sub_cancel]
          rw [List.getElem?_eq_getElem (by omega), List.getD_eq_getElem?_getD,
            List.getElem?_eq_getElem (by omega)]
          rfl
    have h2 : returns[i]? = some (returns.getD i 0) := by
      rw [List.getElem?_eq_getElem hi, List.getD_eq_getElem?_getD,
        List.getElem?_eq_getElem hi]
      rfl
    have h3 : (diff_abs_fillna0 signals)[i]?
        = some (if i = 0 then 0
            else |signals.getD i 0 - signals.getD (i - 1) 0|) := by
      subst hs
      cases i with
      | zero => simp [diff_abs_fillna0]
      | succ j =>
          have hj1 : j + 1 < (x :: s').length := by
            have := hi
            omega
          have hj0 : j < (x :: s').length := by omega
          have hjs : j < s'.length := by
            have := hj1
            simp only [List.length_cons] at this
            omega
          simp only [diff_abs_fillna0, List.getElem?_cons_succ, List.getElem?_zipWith]
          rw [List.getElem?_eq_getElem hjs, List.getElem?_eq_getElem hj0]
          simp only [if_neg (Nat.succ_ne_zero j), Nat.add_sub_cancel]
          rw [List.getD_cons_succ, List.getD_eq_getElem?_getD s' j,
            List.getElem?_eq_getElem hjs, List.getD_eq_getElem?_getD (x :: s') j,
            List.getElem?_eq_getElem hj0]
          rfl
    unfold apply_signals_to_returns
    rw [List.getD_eq_getElem?_getD, List.getElem?_zipWith, List.getElem?_zipWith, h1, h2,
      List.getElem?_map, h3]
    rfl
  · cases hsig : signals with
    | nil => simp [evaluate_turnover, diff_abs_fillna0]
    | cons x s' =>
        unfold evaluate_turnover diff_abs_fillna0
        rw [List.sum_cons, sum_absdiff s' x]
        simp
  · unfold apply_signals_to_returns
    simp only [List.length_zipWith, List.length_map, shift1_length, diff_abs_length, hlen]
    omega

/-- Witness for C9: returns `[1/10, 1/5]`, signals `[1, -1]`, cost 5 bps —
period 1 earns the period-0 signal times the period-1 return minus the
flip cost `|−1−1| * 5/10000`, and the turnover is `2`. -/
theorem apply_signals_no_lookahead_witness :
    (apply_signals_to_returns [1 / 10, 1 / 5] [1, -1] 5).getD 1 0 = 199 / 1000
    ∧ evaluate_turnover [1, -1] = 2 := by
  have habs : |(-1 : ℚ) - 1| = 2 := by
    rw [show ((-1 : ℚ) - 1) = -2 by norm_num, abs_of_neg (by norm_num : (-2 : ℚ) < 0)]
    norm_num
  have h := apply_signals_no_lookahead [1 / 10, 1 / 5] [1, -1] 5 (by decide)
  constructor
  · rw [h.1 1 (by decide)]
    simp only [if_neg (Nat.succ_ne_zero 0)]
    rw [show (1 : ℕ) - 1 = 0 from rfl]
    simp only [List.getD_cons_zero, List.getD_cons_succ]
    rw [habs]
    norm_num
  · rw [h.2.1]
    simp only [List.length_cons, List.length_nil]
    rw [show (0 + 1 + 1 - 1) = 1 by omega, Finset.sum_range_one]
    simp only [List.getD_cons_zero, List.getD_cons_succ]
    exact habs

/-- Every held product has a priced quote — the invariant that makes
`_net_asset_value` total; the spec notes it must hold because admission
requires a known price at entry. -/
def pricedAll (m : Market) (ps : List (String × ℚ)) : Prop :=
  ∀ e ∈ ps, (Portfolio.getPrice m e.1).isSome

theorem mapM_isSome_of_all {α β : Type} (f : α → Option β) :
    ∀ l : List α, (∀ e ∈ l, (f e).isSome) → (l.mapM f).isSome := by
  intro l
  induction l with
  | nil => intro _; rw [List.mapM_nil]; rfl
  | cons a t ih =>
      intro h
      obtain ⟨b, hb⟩ := Option.isSome_iff_exists.mp (h a (by simp))
      obtain ⟨bs, hbs⟩ := Option.isSome_iff_exists.mp (ih (fun e he => h e (by simp [he])))
      rw [List.mapM_cons, hb, hbs]
      rfl

theorem all_isSome_of_mapM {α β : Type} (f : α → Option β) :
    ∀ (l : List α) (r : List β), l.mapM f = some r → ∀ e ∈ l, (f e).isSome := by
  intro l
  induction l with
  | nil => intro r _ e he; simp at he
  | cons a t ih =>
      intro r h e he
      rw [List.mapM_cons] at h
      cases hfa : f a with
      | none => rw [hfa] at h; simp [bind, Option.bind] at h
      | some b =>
          rw [hfa] at h
          cases hmt : t.mapM f with
          | none => rw [hmt] at h; simp [bind, Option.bind] at h
          | some bs =>
              rcases List.mem_cons.mp he with he1 | he2
              · rw [he1, hfa]; rfl
              · exact ih bs hmt e he2

theorem pricedAll_of_check (pf : Portfolio) (m : Market) (new_cash : ℚ)
    (new_ps : List (String × ℚ)) (b : Bool)
    (h : pf.check_leverage m new_cash new_ps = some b) : pricedAll m new_ps := by
  unfold Portfolio.check_leverage projectedLeverage at h
  cases hg : grossExposure m new_ps with
  | none => rw [hg] at h; simp [bind, Option.bind] at h
  | some g =>
      unfold grossExposure at hg
      cases hm : new_ps.mapM (fun e => (Portfolio.getPrice m e.1).map (fun pr => |e.2| * pr)) with
      | none => rw [hm] at hg; simp at hg
      | some l =>
          intro e he
          have := all_isSome_of_mapM _ new_ps l hm e he
          cases hp : Portfolio.getPrice m e.1 with
          | none => rw [hp] at this; simp at this
          | some _ => rfl

theorem getPrice_update (q : Quote) (hq : q.id ≠ "Clock" → q.price.isSome) (m : Market)
    (p : String) (h : (Portfolio.getPrice m p).isSome) :
    (Portfolio.getPrice (m.update q) p).isSome := by
  unfold Market.update
  by_cases hcl : q.id = "Clock"
  · rw [if_neg (by simp [hcl])]
    exact h
  · rw [if_pos hcl]
    unfold Portfolio.getPrice at h ⊢
    by_cases hpq : p = q.id
    · simp only [hpq, if_pos rfl, Option.some_bind]
      exact hq hcl
    · simp only [if_neg hpq]
      exact h

theorem getPrice_updateAll (batch : List Quote) :
    (∀ q ∈ batch, q.id ≠ "Clock" → q.price.isSome) →
    ∀ (m : Market) (p : String), (Portfolio.getPrice m p).isSome →
      (Portfolio.getPrice (m.updateAll batch) p).isSome := by
  induction batch with
  | nil => intro _ m p h; exact h
  | cons q t ih =>
      intro hb m p h
      have hstep : m.updateAll (q :: t) = (m.update q).updateAll t := rfl
      rw [hstep]
      exact ih (fun r hr => hb r (by simp [hr])) (m.update q) p
        (getPrice_update q (hb q (by simp)) m p h)

theorem buy_pricedAll (pf : Portfolio) (m : Market) (product : String) (quantity : ℚ)
    (r : Portfolio × Bool × List TradeRecord) (h : pf.buy m product quantity = some r)
    (hpf : pricedAll m pf.positions) : pricedAll m r.1.positions := by
  unfold Portfolio.buy at h
  cases hq : m.quotes product with
  | none => simp [Portfolio.getTimestamp, hq, bind, Option.bind] at h
  | some qt =>
      cases hp : qt.price with
      | none => simp [Portfolio.getTimestamp, Portfolio.getPrice, hq, hp, bind, Option.bind] at h
      | some price =>
          simp only [Portfolio.getTimestamp, Portfolio.getPrice, hq, hp, Option.map_some',
            Option.some_bind, bind, Option.bind] at h
          cases hc : pf.check_leverage m (pf.cash - price * quantity)
              (setPos pf.positions product (getPos pf.positions product + quantity)) with
          | none => rw [hc] at h; simp at h
          | some ok =>
              rw [hc] at h
              cases ok with
              | true =>
                  simp only [if_pos rfl] at h
                  cases h
                  exact pricedAll_of_check pf m _ _ _ hc
              | false =>
                  simp only [Bool.false_eq_true, if_false] at h
                  cases h
                  exact hpf

theorem sell_pricedAll (pf : Portfolio) (m : Market) (product : String) (quantity : ℚ)
    (r : Portfolio × Bool × List TradeRecord) (h : pf.sell m product quantity = some r)
    (hpf : pricedAll m pf.positions) : pricedAll m r.1.positions := by
  unfold Portfolio.sell at h
  cases hq : m.quotes product with
  | none => simp [Portfolio.getTimestamp, hq, bind, Option.bind] at h
  | some qt =>
      cases hp : qt.price with
      | none => simp [Portfolio.getTimestamp, Portfolio.getPrice, hq, hp, bind, Option.bind] at h
      | some price =>
          simp only [Portfolio.getTimestamp, Portfolio.getPrice, hq, hp, Option.map_some',
            Option.some_bind, bind, Option.bind] at h
          cases hc : pf.check_leverage m (pf.cash + price * quantity)
              (setPos pf.positions product (getPos pf.positions product - quantity)) with
          | none => rw [hc] at h; simp at h
          | some ok =>
              rw [hc] at h
              cases ok with
              | true =>
                  simp only [if_pos rfl] at h
                  cases h
                  exact pricedAll_of_check pf m _ _ _ hc
              | false =>
                  simp only [Bool.false_eq_true, if_false] at h
                  cases h
                  exact hpf

theorem applyCmds_pricedAll (m : Market) :
    ∀ (cmds : List Cmd) (pf : Portfolio), pricedAll m pf.positions →
      pricedAll m (applyCmds m pf cmds).positions := by
  intro cmds
  induction cmds with
  | nil => intro pf h; exact h
  | cons c cs ih =>
      intro pf h
      unfold applyCmds
      cases hc : applyCmd m pf c with
      | none => exact h
      | some pf2 =>
          refine ih pf2 ?_
          cases c with
          | buy p q =>
              have hc2 : Option.map (fun r => r.1) (pf.buy m p q) = some pf2 := hc
              cases hb : pf.buy m p q with
              | none => rw [hb] at hc2; simp at hc2
              | some r =>
                  rw [hb] at hc2
                  simp only [Option.map_some', Option.some.injEq] at hc2
                  rw [← hc2]
                  exact buy_pricedAll pf m p q r hb h
          | sell p q =>
              have hc2 : Option.map (fun r => r.1) (pf.sell m p q) = some pf2 := hc
              cases hb : pf.sell m p q with
              | none => rw [hb] at hc2; simp at hc2
              | some r =>
                  rw [hb] at hc2
                  simp only [Option.map_some', Option.some.injEq] at hc2
                  rw [← hc2]
                  exact sell_pricedAll pf m p q r hb h

theorem navValue_isSome (m : Market) (cash : ℚ) (ps : List (String × ℚ))
    (h : pricedAll m ps) : (navValue m cash ps).isSome := by
  unfold navValue
  have := mapM_isSome_of_all (fun e : String × ℚ =>
      (Portfolio.getPrice m e.1).map (fun pr => e.2 * pr)) ps
    (fun e he => by
      have hs := h e he
      cases hp : Portfolio.getPrice m e.1 with
      | none => rw [hp] at hs; simp at hs
      | some _ => simp [hp])
  cases hm : ps.mapM (fun e => (Portfolio.getPrice m e.1).map (fun pr => e.2 * pr)) with
  | none => rw [hm] at this; simp at this
  | some l => simp [hm]

theorem runFrom_spec (strategy : Strategy) :
    ∀ (batches : List (List Quote)) (e : Engine) (idx : ℕ),
      (∀ b ∈ batches, ∀ q ∈ b, q.id ≠ "Clock" → q.price.isSome) →
      pricedAll e.market e.portfolio.positions →
      ∃ e2, Engine.runFrom strategy e idx batches = some e2
        ∧ e2.nav_history.length = e.nav_history.length + batches.length
        ∧ ∃ tail, e2.nav_history = e.nav_history ++ tail := by
  intro batches
  induction batches with
  | nil =>
      intro e idx _ _
      exact ⟨e, rfl, by simp [Engine.runFrom], ⟨[], by simp⟩⟩
  | cons b bs ih =>
      intro e idx hb hpf
      have hqb : ∀ q ∈ b, q.id ≠ "Clock" → q.price.isSome := hb b (by simp)
      have hm : pricedAll (e.market.updateAll b)
          ((applyCmds (e.market.updateAll b) e.portfolio
            (strategy idx (e.market.updateAll b) e.portfolio).cmds).positions) := by
        refine applyCmds_pricedAll _ _ _ ?_
        intro x hx
        exact getPrice_updateAll b hqb e.market x.1 (hpf x hx)
      have hnav := navValue_isSome (e.market.updateAll b)
        (applyCmds (e.market.updateAll b) e.portfolio
          (strategy idx (e.market.updateAll b) e.portfolio).cmds).cash
        (applyCmds (e.market.updateAll b) e.portfolio
          (strategy idx (e.market.updateAll b) e.portfolio).cmds).positions hm
      obtain ⟨nav, hnv⟩ := Option.isSome_iff_exists.mp hnav
      have hrb : e.runBatch strategy idx b = some
          { e with market := e.market.updateAll b
                   portfolio := applyCmds (e.market.updateAll b) e.portfolio
                      (strategy idx (e.market.updateAll b) e.portfolio).cmds
                   nav_history := e.nav_history ++ [nav] } := by
        unfold Engine.runBatch
        simp only [hnv, Option.map_some']
      obtain ⟨e2, h1, h2, tail, h3⟩ := ih
        { e with market := e.market.updateAll b
                 portfolio := applyCmds (e.market.updateAll b) e.portfolio
                    (strategy idx (e.market.updateAll b) e.portfolio).cmds
                 nav_history := e.nav_history ++ [nav] }
        (idx + 1) (fun x hx => hb x (by simp [hx])) hm
      refine ⟨e2, ?_, ?_, ⟨[nav] ++ tail, ?_⟩⟩
      · show (match e.runBatch strategy idx b with
          | none => none
          | some e3 => Engine.runFrom strategy e3 (idx + 1) bs) = some e2
        rw [hrb]
        exact h1
      · rw [h2]
        simp
        omega
      · rw [h3]
        simp

/-- C3: whatever the strategy's `on_quote` does on any batch — including
raising, possibly after some of its `buy`/`sell` calls committed or
themselves raised — the engine swallows the exception, processes every
subsequent batch, and appends exactly one NAV sample per batch to the
history seeded with the initial cash.  The hypothesis says every non-Clock
quote in the ingested batches carries a price, which §4.1's ingestion
guarantees. -/
theorem engine_swallows_and_records (strategy : Strategy) (univ : List String)
    (batches : List (List Quote)) (initial_cash : ℚ)
    (hqp : ∀ b ∈ batches, ∀ q ∈ b, q.id ≠ "Clock" → q.price.isSome) :
    ∃ e, Engine.run strategy univ batches initial_cash = some e
      ∧ e.nav_history.length = batches.length + 1
      ∧ e.nav_history.head? = some initial_cash := by
  obtain ⟨e2, h1, h2, tail, h3⟩ := runFrom_spec strategy batches
    (Engine.init univ initial_cash) 0 hqp (fun x hx => by simp [Engine.init] at hx)
  refine ⟨e2, h1, ?_, ?_⟩
  · rw [h2]
    simp [Engine.init]
    omega
  · rw [h3]
    simp [Engine.init]

/-- Witness for C3: two batches; the strategy tries to buy an unquoted
product (its call raises) and then raises itself on every batch — the run
still completes with three NAV samples headed by the initial cash. -/
theorem engine_swallows_and_records_witness :
    ∃ e, Engine.run
        (fun _ _ _ => { cmds := [Cmd.buy "MISSING" 1], raises := true })
        ["A"]
        [[{ id := "A", timestep := some "1", price := some 5 },
          { id := "Clock", timestep := some "1", price := none }],
         [{ id := "A", timestep := some "2", price := some 6 },
          { id := "Clock", timestep := some "2", price := none }]]
        100000
      = some e
      ∧ e.nav_history.length = 3
      ∧ e.nav_history.head? = some 100000 := by
  obtain ⟨e, h1, h2, h3⟩ := engine_swallows_and_records
    (fun _ _ _ => { cmds := [Cmd.buy "MISSING" 1], raises := true })
    ["A"]
    [[{ id := "A", timestep := some "1", price := some 5 },
      { id := "Clock", timestep := some "1", price := none }],
     [{ id := "A", timestep := some "2", price := some 6 },
      { id := "Clock", timestep := some "2", price := none }]]
    100000 (by decide)
  exact ⟨e, h1, h2, h3⟩

theorem lexLt_irrefl (a : List Char) : lexLt a a = false := by
  cases h : lexLt a a
  · rfl
  · have := lexLt_asymm a a h
    rw [this] at h
    exact h.symm

/-- The shape every long-format batch has: a nonempty run of product quotes
sharing one time string, in non-decreasing `product_id` order, terminated by
the Clock sentinel carrying that time string. -/
def BatchShape (b : List Quote) : Prop :=
  ∃ (qs : List LQuote) (ts : String), qs ≠ []
    ∧ b = qs.map LQuote.toQuote ++ [clockQuote (some ts)]
    ∧ (∀ q ∈ qs, q.timestep = ts)
    ∧ List.Chain' (fun a c => strLe a.id c.id = true) qs

/-- Well-formed batch list: every batch has the shape above and the string
time keys are non-decreasing from batch to batch. -/
def GoodBatches (l : List (List Quote)) : Prop :=
  List.Chain' (fun b1 b2 => strKeyLeB b1 b2 = true) l ∧ ∀ b ∈ l, BatchShape b

theorem batchTimeKeyStr_flush (cur : List LQuote) (ts : String) :
    batchTimeKeyStr (cur.map LQuote.toQuote ++ [clockQuote (some ts)]) = some ts := by
  unfold batchTimeKeyStr
  rw [List.getLast?_concat]
  rfl

theorem goodBatches_snoc (acc : List (List Quote)) (cur : List LQuote) (ts : String)
    (h1 : cur ≠ []) (h2 : ∀ q ∈ cur, q.timestep = ts)
    (h3 : List.Chain' (fun a c => strLe a.id c.id = true) cur)
    (h5 : GoodBatches acc)
    (h6 : ∀ b ∈ acc.getLast?, ∀ k ∈ batchTimeKeyStr b, strLe k ts = true) :
    GoodBatches (acc ++ [cur.map LQuote.toQuote ++ [clockQuote (some ts)]]) := by
  constructor
  · rw [List.chain'_append]
    refine ⟨h5.1, List.chain'_singleton _, ?_⟩
    intro x hx y hy
    simp only [List.head?_cons, Option.mem_def, Option.some.injEq] at hy
    subst hy
    unfold strKeyLeB
    rw [batchTimeKeyStr_flush]
    cases hk : batchTimeKeyStr x with
    | none => rfl
    | some k => exact h6 x hx k (by rw [hk]; rfl)
  · intro b hb
    rcases List.mem_append.mp hb with hb1 | hb2
    · exact h5.2 b hb1
    · have : b = cur.map LQuote.toQuote ++ [clockQuote (some ts)] := by
        simpa using hb2
      exact ⟨cur, ts, h1, this, h2, h3⟩

theorem strLt_irrefl (s : String) : strLt s s = false := lexLt_irrefl s.data

theorem strLe_of_strLt {a b : String} (h : strLt a b = true) : strLe a b = true := by
  unfold strLe
  unfold strLt at h ⊢
  rw [lexLt_asymm _ _ h]
  rfl

theorem lq_same_ts {a q : LQuote} (ha : lqKeyRel a q) (hts : a.timestep = q.timestep) :
    strLe a.id q.id = true := by
  unfold lqKeyRel lqKeyLe at ha
  rw [hts, strLt_irrefl] at ha
  simp only [Bool.false_or, Bool.and_eq_true, beq_iff_eq] at ha
  exact ha.2

theorem lq_diff_ts {a q : LQuote} (ha : lqKeyRel a q) (hts : a.timestep ≠ q.timestep) :
    strLt a.timestep q.timestep = true := by
  unfold lqKeyRel lqKeyLe at ha
  simp only [Bool.or_eq_true, Bool.and_eq_true, beq_iff_eq] at ha
  rcases ha with h | ⟨h, _⟩
  · exact h
  · exact absurd h hts

theorem batchFoldl_spec :
    ∀ (qs cur : List LQuote) (ts : String) (acc : List (List Quote)),
      cur ≠ [] →
      (∀ q ∈ cur, q.timestep = ts) →
      List.Chain' (fun a c => strLe a.id c.id = true) cur →
      List.Pairwise lqKeyRel (cur ++ qs) →
      GoodBatches acc →
      (∀ b ∈ acc.getLast?, ∀ k ∈ batchTimeKeyStr b, strLe k ts = true) →
      ∃ (cur2 : List LQuote) (ts2 : String) (acc2 : List (List Quote)),
        qs.foldl batchStep { current_batch := cur, last_ts := some ts, acc := acc }
          = { current_batch := cur2, last_ts := some ts2, acc := acc2 }
        ∧ cur2 ≠ []
        ∧ (∀ q ∈ cur2, q.timestep = ts2)
        ∧ List.Chain' (fun a c => strLe a.id c.id = true) cur2
        ∧ GoodBatches acc2
        ∧ (∀ b ∈ acc2.getLast?, ∀ k ∈ batchTimeKeyStr b, strLe k ts2 = true) := by
  intro qs
  induction qs with
  | nil =>
      intro cur ts acc h1 h2 h3 _ h5 h6
      exact ⟨cur, ts, acc, rfl, h1, h2, h3, h5, h6⟩
  | cons q rest ih =>
      intro cur ts acc h1 h2 h3 h4 h5 h6
      have hfold : (q :: rest).foldl batchStep
          { current_batch := cur, last_ts := some ts, acc := acc }
          = rest.foldl batchStep
            (batchStep { current_batch := cur, last_ts := some ts, acc := acc } q) := rfl
      have h4split := List.pairwise_append.mp
        (by rw [show cur ++ q :: rest = cur ++ ([q] ++ rest) by simp] at h4; exact h4)
      have hcurq : ∀ a ∈ cur, lqKeyRel a q := fun a ha =>
        h4split.2.2 a ha q (by simp)
      have hemp : cur.isEmpty = false := by
        cases cur with
        | nil => exact absurd rfl h1
        | cons a t => rfl
      by_cases hts : q.timestep = ts
      · have hstep : batchStep { current_batch := cur, last_ts := some ts, acc := acc } q
            = { current_batch := cur ++ [q], last_ts := some ts, acc := acc } := by
          unfold batchStep
          simp only [Option.getD_some]
          rw [if_neg (by simp [hts])]
        rw [hfold, hstep]
        refine ih (cur ++ [q]) ts acc (by simp) ?_ ?_ ?_ h5 h6
        · intro x hx
          rcases List.mem_append.mp hx with hx1 | hx2
          · exact h2 x hx1
          · rw [List.mem_singleton.mp hx2]
            exact hts
        · rw [List.chain'_append]
          refine ⟨h3, List.chain'_singleton _, ?_⟩
          intro x hx y hy
          simp only [List.head?_cons, Option.mem_def, Option.some.injEq] at hy
          subst hy
          have hxmem : x ∈ cur := by
            obtain ⟨hne, hx2⟩ := List.mem_getLast?_eq_getLast hx
            rw [hx2]
            exact List.getLast_mem hne
          exact lq_same_ts (hcurq x hxmem) (by rw [h2 x hxmem, hts])
        · rw [List.append_assoc, List.singleton_append]
          exact h4
      · have hstep : batchStep { current_batch := cur, last_ts := some ts, acc := acc } q
            = { current_batch := [q], last_ts := some q.timestep,
                acc := acc ++ [cur.map LQuote.toQuote ++ [clockQuote (some ts)]] } := by
          unfold batchStep
          simp only [Option.getD_some, hemp, Bool.false_eq_true, if_false]
          rw [if_pos (by simp [hts])]
        obtain ⟨c0, cur', hc0⟩ := List.exists_cons_of_ne_nil h1
        have hc0mem : c0 ∈ cur := by rw [hc0]; simp
        have hlt : strLt ts q.timestep = true := by
          have := lq_diff_ts (hcurq c0 hc0mem)
            (by rw [h2 c0 hc0mem]; exact fun hh => hts hh.symm)
          rwa [h2 c0 hc0mem] at this
        rw [hfold, hstep]
        refine ih [q] q.timestep (acc ++ [cur.map LQuote.toQuote ++ [clockQuote (some ts)]])
          (by simp) (by simp) (List.chain'_singleton _) ?_ ?_ ?_
        · rw [List.singleton_append]
          exact h4split.2.1
        · exact goodBatches_snoc acc cur ts h1 h2 h3 h5 h6
        · intro b hb k hk
          rw [List.getLast?_concat] at hb
          simp only [Option.mem_def, Option.some.injEq] at hb
          subst hb
          rw [batchTimeKeyStr_flush] at hk
          simp only [Option.mem_def, Option.some.injEq] at hk
          subst hk
          exact strLe_of_strLt hlt

theorem batchQuotes_good (qs : List LQuote) (h : List.Pairwise lqKeyRel qs) :
    GoodBatches (batchQuotes qs) := by
  cases qs with
  | nil => exact ⟨List.chain'_nil, fun b hb => absurd hb (List.not_mem_nil b)⟩
  | cons q0 rest =>
      unfold batchQuotes
      have hstep0 : batchStep { current_batch := [], last_ts := none, acc := [] } q0
          = { current_batch := [q0], last_ts := some q0.timestep, acc := [] } := by
        unfold batchStep
        simp only [Option.getD_none]
        rw [if_neg (by simp)]
        rfl
      obtain ⟨cur2, ts2, acc2, hf, h1, h2, h3, h5, h6⟩ :=
        batchFoldl_spec rest [q0] q0.timestep []
          (by simp) (by simp) (List.chain'_singleton _) h
          ⟨List.chain'_nil, by intro b hb; simp at hb⟩
          (by intro b hb; simp at hb)
      have hall : (q0 :: rest).foldl batchStep
          { current_batch := [], last_ts := none, acc := [] }
          = { current_batch := cur2, last_ts := some ts2, acc := acc2 } := by
        rw [List.foldl_cons, hstep0, hf]
      rw [hall]
      obtain ⟨c0, cur', hc⟩ := List.exists_cons_of_ne_nil h1
      subst hc
      exact goodBatches_snoc acc2 (c0 :: cur') ts2 (by simp) h2 h3 h5 h6

theorem except_eq_ok_of_toOption {ε α : Type} {e : Except ε α} {v : α}
    (h : e.toOption = some v) : e = Except.ok v := by
  cases e with
  | ok a =>
      have : a = v := by simpa [Except.toOption] using h
      rw [this]
  | error msg => simp [Except.toOption] at h

theorem parseLongRow_none_of_no_time (time_col : String) (row : Row)
    (h : Row.get row time_col = none) : parseLongRow time_col row = none := by
  unfold parseLongRow
  cases hp : Row.get row "mid_price" with
  | none => rfl
  | some v =>
      cases hf : pyFloat v with
      | none => simp [hf, bind, Option.bind]
      | some price => simp [hf, h, bind, Option.bind]

/-- Counterexample for C4: a long-format header with neither `timestep` nor
`timestamp` does not raise any error — the reader falls back to the name
`timestamp`, every row's time lookup fails inside the per-row `try` and is
skipped, and ingestion returns cleanly with the universe and an *empty*
batch sequence. -/
theorem missing_time_col_silently_ok :
    (read_and_batch_csv_data ["product_id", "mid_price"]
      [[("product_id", "A"), ("mid_price", "1")]]).toOption = some (["A"], [])
    ∧ ∀ msg, read_and_batch_csv_data ["product_id", "mid_price"]
        [[("product_id", "A"), ("mid_price", "1")]] ≠ Except.error msg := by
  refine ⟨by decide, ?_⟩
  intro msg hmsg
  have h2 : (read_and_batch_csv_data ["product_id", "mid_price"]
      [[("product_id", "A"), ("mid_price", "1")]]).toOption = some (["A"], []) := by decide
  rw [hmsg] at h2
  simp [Except.toOption] at h2

/-- C4 as amended: with neither time column in the header, long-format
ingestion does not fail at all — the time column silently resolves to
`timestamp`, every row is skipped when its time lookup raises `KeyError`
inside the per-row `try`, and the function returns the universe with an
empty batch list.  (Hypotheses: rows carry exactly the header keys, as
`csv.DictReader` guarantees.) -/
theorem read_missing_time_col (headers : List String) (rows : List Row)
    (h1 : headers.contains "timestep" = false)
    (_h2 : headers.contains "timestamp" = false)
    (hlong : headers.contains "product_id" = true)
    (hpid : ∀ r ∈ rows, (Row.get r "product_id").isSome)
    (hts : ∀ r ∈ rows, Row.get r "timestamp" = none) :
    ∃ u, read_and_batch_csv_data headers rows = Except.ok (u, []) := by
  obtain ⟨pids, hpids⟩ := Option.isSome_iff_exists.mp
    (mapM_isSome_of_all (fun r => Row.get r "product_id") rows hpid)
  refine ⟨List.insertionSort strLeRel pids.dedup, ?_⟩
  unfold read_and_batch_csv_data
  simp only [h1, Bool.false_eq_true, if_false, hlong, if_true, hpids]
  have hplr : ∀ r ∈ rows, parseLongRow "timestamp" r = none := fun r hr =>
    parseLongRow_none_of_no_time _ _ (hts r hr)
  have hfm : (List.insertionSort strLeRel pids.dedup).flatMap
      (fun ric => rows.filterMap (fun r => (parseLongRow "timestamp" r).bind
        (fun q => if q.id = ric then some q else none))) = [] := by
    rw [List.flatMap_eq_nil_iff]
    intro ric _
    rw [List.filterMap_eq_nil_iff]
    intro r hr
    rw [hplr r hr]
    rfl
  rw [hfm]
  rfl

/-- Witness for the amended C4: the counterexample input, through the
amended theorem. -/
theorem read_missing_time_col_witness :
    ∃ u, read_and_batch_csv_data ["product_id", "mid_price"]
      [[("product_id", "A"), ("mid_price", "1")]] = Except.ok (u, []) :=
  read_missing_time_col ["product_id", "mid_price"]
    [[("product_id", "A"), ("mid_price", "1")]]
    (by decide) (by decide) (by decide) (by decide) (by decide)

/-- Counterexample for C5: long-format rows with integer timesteps 2 and 10.
The sort key is the raw *string*, and `"10" < "2"` lexicographically, so the
batch for timestep 10 is produced before the batch for timestep 2: read as
integers the batch time keys are 10 then 2 — not non-decreasing. -/
theorem long_batches_not_int_ordered :
    (read_and_batch_csv_data ["timestep", "product_id", "mid_price"]
      [[("timestep", "2"), ("product_id", "A"), ("mid_price", "5")],
       [("timestep", "10"), ("product_id", "A"), ("mid_price", "6")]]).toOption
      = some (["A"],
        [[{ id := "A", timestep := some "10", price := some 6 },
          { id := "Clock", timestep := some "10", price := none }],
         [{ id := "A", timestep := some "2", price := some 5 },
          { id := "Clock", timestep := some "2", price := none }]])
    ∧ batchTimeKeyNat
        [{ id := "A", timestep := some "10", price := some 6 },
         { id := "Clock", timestep := some "10", price := none }] = some 10
    ∧ batchTimeKeyNat
        [{ id := "A", timestep := some "2", price := some 5 },
         { id := "Clock", timestep := some "2", price := none }] = some 2
    ∧ ¬ List.Chain' (fun b1 b2 => natKeyLeB b1 b2 = true)
        [[{ id := "A", timestep := some "10", price := some 6 },
          { id := "Clock", timestep := some "10", price := none }],
         [{ id := "A", timestep := some "2", price := some 5 },
          { id := "Clock", timestep := some "2", price := none }]] := by
  refine ⟨by decide, by decide, by decide, ?_⟩
  intro hch
  have h12 := (List.chain'_cons.mp hch).1
  have hf : natKeyLeB
      [{ id := "A", timestep := some "10", price := some 6 },
       { id := "Clock", timestep := some "10", price := none }]
      [{ id := "A", timestep := some "2", price := some 5 },
       { id := "Clock", timestep := some "2", price := none }] = false := by decide
  rw [hf] at h12
  exact Bool.false_ne_true h12

/-- C5 as amended: long-format batches come out in non-decreasing
*lexicographic string* order of the raw time cell (which coincides with
numeric order only when the strings compare like their values); within each
batch the product quotes share the batch's time string, are ordered by
`product_id` ascending, and the Clock sentinel carrying that time string is
appended last. -/
theorem long_batches_string_sorted (headers : List String) (rows : List Row)
    (hlong : headers.contains "product_id" = true) (u : List String)
    (batches : List (List Quote))
    (h : read_and_batch_csv_data headers rows = Except.ok (u, batches)) :
    List.Chain' (fun b1 b2 => strKeyLeB b1 b2 = true) batches
    ∧ ∀ b ∈ batches, BatchShape b := by
  unfold read_and_batch_csv_data at h
  simp only [hlong, if_true] at h
  cases hm : rows.mapM (fun r => Row.get r "product_id") with
  | none => rw [hm] at h; simp at h
  | some pids =>
      rw [hm] at h
      rw [Except.ok.injEq, Prod.mk.injEq] at h
      obtain ⟨hu, hb⟩ := h
      subst hb
      have hg := batchQuotes_good _
        (List.sorted_insertionSort lqKeyRel
          ((List.insertionSort strLeRel pids.dedup).flatMap (fun ric =>
            rows.filterMap (fun r =>
              (parseLongRow (if headers.contains "timestep" then "timestep" else "timestamp")
                r).bind (fun q => if q.id = ric then some q else none)))))
      exact ⟨hg.1, hg.2⟩

/-- Witness for the amended C5: three rows over two products and two
timesteps batch into `[[A@1, B@1, Clock@1], [A@2, Clock@2]]`, which the
theorem certifies as string-ordered with ascending ids and trailing
Clock sentinels. -/
theorem long_batches_string_sorted_witness :
    List.Chain' (fun b1 b2 => strKeyLeB b1 b2 = true)
      [[{ id := "A", timestep := some "1", price := some 3 },
        { id := "B", timestep := some "1", price := some 4 },
        { id := "Clock", timestep := some "1", price := none }],
       [{ id := "A", timestep := some "2", price := some 5 },
        { id := "Clock", timestep := some "2", price := none }]]
    ∧ ∀ b ∈ [[{ id := "A", timestep := some "1", price := some 3 },
        { id := "B", timestep := some "1", price := some 4 },
        { id := "Clock", timestep := some "1", price := none }],
       [{ id := "A", timestep := some "2", price := some 5 },
        { id := "Clock", timestep := some "2", price := none }]], BatchShape b := by
  have hok : read_and_batch_csv_data ["timestep", "product_id", "mid_price"]
      [[("timestep", "1"), ("product_id", "A"), ("mid_price", "3")],
       [("timestep", "1"), ("product_id", "B"), ("mid_price", "4")],
       [("timestep", "2"), ("product_id", "A"), ("mid_price", "5")]]
      = Except.ok (["A", "B"],
        [[{ id := "A", timestep := some "1", price := some 3 },
          { id := "B", timestep := some "1", price := some 4 },
          { id := "Clock", timestep := some "1", price := none }],
         [{ id := "A", timestep := some "2", price := some 5 },
          { id := "Clock", timestep := some "2", price := none }]]) :=
    except_eq_ok_of_toOption (by decide)
  exact long_batches_string_sorted _ _ (by decide) _ _ hok

/-- Counterexample for C6: two long-format rows for the same product at the
same timestep are neither coalesced nor rejected — the single batch contains
two quotes with product id `"A"` (the market later applies them in order, so
the second one wins). -/
theorem long_batch_duplicate_product :
    (read_and_batch_csv_data ["timestep", "product_id", "mid_price"]
      [[("timestep", "1"), ("product_id", "A"), ("mid_price", "5")],
       [("timestep", "1"), ("product_id", "A"), ("mid_price", "6")]]).toOption
      = some (["A"],
        [[{ id := "A", timestep := some "1", price := some 5 },
          { id := "A", timestep := some "1", price := some 6 },
          { id := "Clock", timestep := some "1", price := none }]])
    ∧ ¬ (([{ id := "A", timestep := some "1", price := some 5 },
           { id := "A", timestep := some "1", price := some 6 },
           { id := "Clock", timestep := some "1", price := none }] : List Quote).map
          Quote.id).Nodup := by
  refine ⟨by decide, by decide⟩

theorem filterMap_ids_sublist (g : String → Option Quote)
    (hg : ∀ ric q, g ric = some q → q.id = ric) :
    ∀ univ : List String, ((univ.filterMap g).map Quote.id).Sublist univ := by
  intro univ
  induction univ with
  | nil => simp
  | cons ric t ih =>
      cases hric : g ric with
      | none =>
          rw [List.filterMap_cons_none hric]
          exact ih.cons ric
      | some q =>
          rw [List.filterMap_cons_some hric, List.map_cons, hg ric q hric]
          exact ih.cons₂ ric

theorem parseWideRow_ids_nodup (time_col : String) (univ : List String) (row : Row)
    (hnd : univ.Nodup) (hcl : "Clock" ∉ univ) (b : List Quote)
    (h : parseWideRow time_col univ row = some b) : (b.map Quote.id).Nodup := by
  set g := fun ric =>
    match Row.get row ric with
    | none => none
    | some v =>
        if v == "" || v == "NaN" then none
        else (pyFloat v).map (fun price =>
          ({ id := ric, timestep := Row.get row time_col, price := some price } : Quote))
    with hgdef
  have hg : ∀ ric q, g ric = some q → q.id = ric := by
    intro ric q hq
    have hq2 : (match Row.get row ric with
        | none => none
        | some v =>
            if v == "" || v == "NaN" then none
            else (pyFloat v).map (fun price =>
              ({ id := ric, timestep := Row.get row time_col,
                 price := some price } : Quote)))
        = some q := hq
    clear hq
    cases hrv : Row.get row ric with
    | none => rw [hrv] at hq2; simp at hq2
    | some v =>
        rw [hrv] at hq2
        have hq3 : (if v == "" || v == "NaN" then none
            else (pyFloat v).map (fun price =>
              ({ id := ric, timestep := Row.get row time_col,
                 price := some price } : Quote))) = some q := hq2
        clear hq2
        by_cases hv : (v == "" || v == "NaN") = true
        · rw [if_pos hv] at hq3; simp at hq3
        · rw [if_neg hv] at hq3
          cases hpf : pyFloat v with
          | none => rw [hpf] at hq3; simp at hq3
          | some price =>
              rw [hpf] at hq3
              simp only [Option.map_some', Option.some.injEq] at hq3
              rw [← hq3]
  have hpw : parseWideRow time_col univ row
      = (if (univ.filterMap g).isEmpty then none
         else some (univ.filterMap g ++ [clockQuote (Row.get row time_col)])) := rfl
  rw [hpw] at h
  cases hem : (univ.filterMap g).isEmpty with
  | true => rw [hem] at h; simp at h
  | false =>
      rw [hem] at h
      simp only [Bool.false_eq_true, if_false, Option.some.injEq] at h
      subst h
      have hsub := filterMap_ids_sublist g hg univ
      rw [List.map_append]
      refine List.Nodup.append (hsub.nodup hnd) (by simp) ?_
      intro x hx1 hx2
      have : x = "Clock" := by simpa [clockQuote] using hx2
      subst this
      exact hcl (hsub.subset hx1)

/-- C6 as amended: the no-duplicate invariant holds for *wide-format*
ingestion (given distinct column headers, none named `Clock`): each batch
holds at most one quote per product plus the Clock sentinel.  Long-format
ingestion, by contrast, keeps duplicate rows (see the counterexample). -/
theorem wide_batches_nodup_ids (headers : List String) (rows : List Row)
    (hwide : headers.contains "product_id" = false)
    (hnd : headers.Nodup) (hcl : "Clock" ∉ headers) (u : List String)
    (batches : List (List Quote))
    (h : read_and_batch_csv_data headers rows = Except.ok (u, batches)) :
    ∀ b ∈ batches, (b.map Quote.id).Nodup := by
  unfold read_and_batch_csv_data at h
  simp only [hwide, Bool.false_eq_true, if_false] at h
  rw [Except.ok.injEq, Prod.mk.injEq] at h
  obtain ⟨hu, hb⟩ := h
  subst hb
  intro b hbmem
  obtain ⟨row, hrow, hpw⟩ := List.mem_filterMap.mp hbmem
  refine parseWideRow_ids_nodup _ _ row ?_ ?_ b hpw
  · exact ((List.perm_insertionSort strLeRel _).nodup_iff).mpr (hnd.filter _)
  · intro hmem
    have := (List.perm_insertionSort strLeRel _).mem_iff.mp hmem
    exact hcl (List.mem_of_mem_filter this)

/-- Witness for the amended C6: a wide row over columns `A`, `B` where only
the `A` cell parses — the produced batch's ids `["A", "Clock"]` have no
duplicate, by the theorem. -/
theorem wide_batches_nodup_ids_witness :
    (([{ id := "A", timestep := some "1", price := some 5 },
       { id := "Clock", timestep := some "1", price := none }] : List Quote).map
      Quote.id).Nodup := by
  have hok : read_and_batch_csv_data ["timestep", "B", "A"]
      [[("timestep", "1"), ("A", "5"), ("B", "x")]]
      = Except.ok (["A", "B"],
        [[{ id := "A", timestep := some "1", price := some 5 },
          { id := "Clock", timestep := some "1", price := none }]]) :=
    except_eq_ok_of_toOption (by decide)
  exact wide_batches_nodup_ids ["timestep", "B", "A"]
    [[("timestep", "1"), ("A", "5"), ("B", "x")]]
    (by decide) (by decide) (by decide) _ _ hok _ (by simp)
